import Mathlib

/-!
Verification of the penstock core: flow registry, DAG rendering, flow
context propagation and the entrypoint/step call wrappers.

The Python sources are shallowly embedded:

* Python `dict` (insertion-ordered) becomes an association list
  `List (κ × α)` with `aget?` (lookup `d.get(k)`) and `aset`
  (assignment `d[k] = v`: update in place keeping the position, append
  at the end when the key is new).
* Raised exceptions become an `Except PyError` result; a call that
  raises leaves the pure state with the caller unchanged, matching the
  source where every raise happens before any mutation.
* Reference semantics (the defensive copy in `get_flow`, the deep copy
  in `FlowContext.fork`) is made explicit with a small heap of
  addressed cells, so that "later mutation does not affect the
  snapshot/fork" is a real statement rather than a triviality.
-/

namespace Penstock

/-- The Python exception classes raised by the core, with their message. -/
inductive PyError where
  | valueError (msg : String)
  | keyError (msg : String)
  | runtimeError (msg : String)
deriving DecidableEq, Repr

/-- `penstock/_types.py` `StepInfo`: frozen dataclass, structural equality. -/
structure StepInfo where
  name : String
  flow_name : String
  after : List String
  is_entrypoint : Bool
deriving DecidableEq, Repr

/-- Association-list lookup, Python `d.get(k)`. -/
def aget? {κ α : Type} [DecidableEq κ] : List (κ × α) → κ → Option α
  | [], _ => none
  | (k, v) :: rest, key => if k = key then some v else aget? rest key

/-- Association-list assignment, Python `d[k] = v`: replaces in place
(keeping the key position, as an insertion-ordered dict does) or appends
at the end when the key is new. -/
def aset {κ α : Type} [DecidableEq κ] : List (κ × α) → κ → α → List (κ × α)
  | [], key, v => [(key, v)]
  | (k, w) :: rest, key, v =>
    if k = key then (key, v) :: rest else (k, w) :: aset rest key v

/-- Python `del d[k]`: drops the first binding of `k` (keys are unique in
a dict, so the only one). -/
def adel {κ α : Type} [DecidableEq κ] : List (κ × α) → κ → List (κ × α)
  | [], _ => []
  | (k, w) :: rest, key => if k = key then rest else (k, w) :: adel rest key

/-- A flow's step dict: step name → `StepInfo` (insertion-ordered). -/
abbrev StepDict := List (String × StepInfo)

/-- `FlowRegistry._steps`: flow name → step dict. -/
abbrev Registry := List (String × StepDict)

/-- `penstock/_types.py` `FlowInfo` (frozen dataclass). `entrypoints`
is a `frozenset` in the source; it is kept here as the list of names in
the order `frozenset(...)` receives them. -/
structure FlowInfo where
  name : String
  steps : StepDict
  entrypoints : List String
deriving DecidableEq, Repr

/-- `FlowRegistry.register` (`penstock/_registry.py`).  `setdefault`
produces the flow dict (empty when the flow is new); an existing equal
entry is a no-op, a differing one raises `ValueError`, otherwise the
step is assigned into the flow dict. -/
def register (r : Registry) (info : StepInfo) : Except PyError Registry :=
  let fs := (aget? r info.flow_name).getD []
  match aget? fs info.name with
  | some existing =>
    if existing = info then .ok r
    else .error (.valueError ("Conflicting registration for step '" ++ info.name
      ++ "' in flow '" ++ info.flow_name ++ "'"))
  | none => .ok (aset r info.flow_name (aset fs info.name info))

/-- `FlowRegistry.get_flow`: `KeyError` when the flow is unknown,
otherwise a `FlowInfo` with the step dict and the entrypoint names
(`s.name for s in steps.values() if s.is_entrypoint`). -/
def get_flow (r : Registry) (name : String) : Except PyError FlowInfo :=
  match aget? r name with
  | none => .error (.keyError ("Flow '" ++ name ++ "' not found"))
  | some steps =>
    .ok { name := name
          steps := steps
          entrypoints := (steps.filter (fun p => p.2.is_entrypoint)).map (fun p => p.2.name) }

/-- `FlowRegistry.validate_flow`: resolves the flow (propagating its
`KeyError`), lists every `after` reference that is not a key of the
flow's step dict, and raises a single `ValueError` enumerating them;
succeeds when the list is empty. -/
def validate_flow (r : Registry) (name : String) : Except PyError Unit :=
  match get_flow r name with
  | .error e => .error e
  | .ok flow =>
    let missing := flow.steps.flatMap (fun p =>
      (p.2.after.filter (fun ref => (aget? flow.steps ref).isNone)).map
        (fun ref => "Step '" ++ p.2.name ++ "' references unknown step '" ++ ref ++ "'"))
    if missing.isEmpty then .ok ()
    else .error (.valueError ("Flow '" ++ name ++ "' has invalid references:\n"
      ++ String.intercalate "\n" (missing.map (fun m => "  - " ++ m))))

/-- Python tuple comparison `(a1, a2) <= (b1, b2)` on string pairs
(lexicographic), as established by `edges.sort()`: when the first
components are equal compare the second, otherwise compare the first
(for distinct strings `a1 <= b1` coincides with `a1 < b1`). -/
def edgeLe (a b : String × String) : Bool :=
  if a.1 = b.1 then decide (a.2 ≤ b.2) else decide (a.1 ≤ b.1)

/-- Python `a <= b` on strings, as used by `sorted(info.steps)`. -/
def strLe (a b : String) : Bool := decide (a ≤ b)

/-- The edge list of a flow: one `(predecessor, step.name)` pair per
entry of each step's `after` list, in iteration order (this is both the
source's edge collection and the spec's "each (predecessor, step) pair
taken from the steps' after lists"). -/
def edgesOf (steps : StepDict) : List (String × String) :=
  steps.flatMap (fun p => p.2.after.map (fun pred => (pred, p.2.name)))

/-- `generate_dag` (`penstock/_dag.py`), the string-returning path
(`output=None`): rejects any format other than `"mermaid"` before
touching the registry, resolves the flow, collects one `(predecessor,
step.name)` edge per entry of each step's `after`, sorts the edges, and
renders either the edge lines or (when there are no edges) one line per
step name, sorted, under the `graph TD` header. -/
def generate_dag (r : Registry) (flow_name : String) (format : String) :
    Except PyError String :=
  if format ≠ "mermaid" then
    .error (.valueError ("Unsupported format: '" ++ format ++ "'"))
  else
    match get_flow r flow_name with
    | .error e => .error e
    | .ok info =>
      let edges := edgesOf info.steps
      let lines :=
        if edges.isEmpty then
          "graph TD" :: ((info.steps.map Prod.fst).mergeSort strLe).map (fun n => "    " ++ n)
        else
          "graph TD" :: (edges.mergeSort edgeLe).map (fun e => "    " ++ e.1 ++ " --> " ++ e.2)
      .ok (String.intercalate "\n" lines ++ "\n")

/-- Observable registry content: the `StepInfo` stored under a
`(flow, step)` key, `none` when absent. -/
def lookupStep (r : Registry) (flow step : String) : Option StepInfo :=
  aget? ((aget? r flow).getD []) step

/-- Every dangling `after` reference of a flow, as the spec enumerates
them: a pair (referencing step's name, unknown predecessor name) for
each entry of each step's `after` list that names no step of the flow
(the flow's step names being the keys of its step dict). -/
def refViolations (steps : StepDict) : List (String × String) :=
  steps.flatMap (fun p =>
    (p.2.after.filter (fun ref => !(steps.map Prod.fst).contains ref)).map
      (fun ref => (p.2.name, ref)))

/-- The aggregated `validate_flow` message rendered from a violation list. -/
def renderViolations (name : String) (vs : List (String × String)) : String :=
  "Flow '" ++ name ++ "' has invalid references:\n"
    ++ String.intercalate "\n"
      (vs.map (fun v => "  - " ++ ("Step '" ++ v.1 ++ "' references unknown step '" ++ v.2 ++ "'")))

/-- The DAG rendering rule as the spec words it: a `graph TD` header;
one indented line `pred --> step` per (predecessor, step name) pair
taken from the `after` lists, sorted lexicographically by pair; when
the flow has zero edges, instead one indented line per step name,
sorted lexicographically. -/
def specRenderDag (fi : FlowInfo) : String :=
  let pairs := edgesOf fi.steps
  let body :=
    if pairs.isEmpty then
      ((fi.steps.map (fun p => p.2.name)).mergeSort strLe).map (fun n => "    " ++ n)
    else
      (pairs.mergeSort edgeLe).map (fun e => "    " ++ e.1 ++ " --> " ++ e.2)
  String.intercalate "\n" ("graph TD" :: body) ++ "\n"

/-! ### Heap-explicit models

Python objects live on a heap and are passed by reference.  For the
two claims that are about aliasing — the defensive copy in `get_flow`
and the deep copy in `FlowContext.fork` — the relevant dicts are
modelled as addressed cells in an explicit heap, so that "a later
mutation does not change the snapshot" is a contentful statement. -/

/-- A heap of addressed mutable cells; `next` is the next fresh address. -/
structure Heap (β : Type) where
  store : List (Nat × β)
  next : Nat

/-- Dereference an address. -/
def Heap.read {β : Type} (h : Heap β) (a : Nat) : Option β := aget? h.store a

/-- Overwrite the cell at an address. -/
def Heap.write {β : Type} (h : Heap β) (a : Nat) (v : β) : Heap β :=
  ⟨aset h.store a v, h.next⟩

/-- Allocate a fresh cell holding `v`; returns its address. -/
def Heap.alloc {β : Type} (h : Heap β) (v : β) : Nat × Heap β :=
  (h.next, ⟨h.store ++ [(h.next, v)], h.next + 1⟩)

/-- Every cell of the heap sits below the fresh-address watermark. -/
def HeapOk {β : Type} (h : Heap β) : Prop := ∀ p ∈ h.store, p.1 < h.next

/-- Heap-explicit `FlowRegistry._steps`: flow name → address of the
flow's (mutable) step dict. -/
abbrev RegistryH := List (String × Nat)

/-- Every dict the registry points to is an allocated cell. -/
def RegOk (r : RegistryH) (h : Heap StepDict) : Prop := ∀ p ∈ r, p.2 < h.next

/-- Heap-explicit `FlowRegistry.register`: `setdefault` allocates a
fresh empty dict when the flow is new; the step assignment writes the
flow's dict cell in place. -/
def registerH (r : RegistryH) (h : Heap StepDict) (info : StepInfo) :
    Except PyError (RegistryH × Heap StepDict) :=
  match aget? r info.flow_name with
  | some a =>
    let fs := (h.read a).getD []
    match aget? fs info.name with
    | some existing =>
      if existing = info then .ok (r, h)
      else .error (.valueError ("Conflicting registration for step '" ++ info.name
        ++ "' in flow '" ++ info.flow_name ++ "'"))
    | none => .ok (r, h.write a (aset fs info.name info))
  | none =>
    let (a, h₁) := h.alloc []
    .ok (aset r info.flow_name a, h₁.write a (aset [] info.name info))

/-- Heap-explicit `FlowInfo`: `steps` is the address of the snapshot
dict that `dict(steps)` produced. -/
structure FlowInfoH where
  name : String
  steps : Nat
  entrypoints : List String

/-- Heap-explicit `FlowRegistry.get_flow`: `dict(steps)` allocates a
fresh dict holding a copy of the flow's current entries. -/
def getFlowH (r : RegistryH) (h : Heap StepDict) (name : String) :
    Except PyError (FlowInfoH × Heap StepDict) :=
  match aget? r name with
  | none => .error (.keyError ("Flow '" ++ name ++ "' not found"))
  | some a =>
    let steps := (h.read a).getD []
    let (ca, h₁) := h.alloc steps
    .ok ({ name := name
           steps := ca
           entrypoints := (steps.filter (fun p => p.2.is_entrypoint)).map (fun p => p.2.name) },
         h₁)

/-- Any later sequence of `register` calls (for this flow or any
other); a call that raises leaves the state unchanged and the sequence
continues. -/
def registerManyH (l : List StepInfo) (rh : RegistryH × Heap StepDict) :
    RegistryH × Heap StepDict :=
  match l with
  | [] => rh
  | info :: rest =>
    match registerH rh.1 rh.2 info with
    | .ok rh₁ => registerManyH rest rh₁
    | .error _ => registerManyH rest rh

/-- Relation between a snapshot dict's address and the registry state:
the address is allocated, the state is well-formed, and no dict the
registry owns sits at that address. -/
def SnapOk (a : Nat) (r : RegistryH) (h : Heap StepDict) : Prop :=
  a < h.next ∧ HeapOk h ∧ RegOk r h ∧ ∀ p ∈ r, p.2 ≠ a

/-- `penstock/_context.py` `FlowContext`, heap-explicit: `_metadata`
maps keys to addresses of mutable value cells.  A cell payload is
modelled as a `List String` — the simplest mutable container — which
suffices to express in-place mutation of a stored value. -/
structure FlowContextH where
  correlation_id : String
  metadata : List (String × Nat)

/-- The heap of metadata value cells. -/
abbrev CtxHeap := Heap (List String)

/-- `copy.deepcopy` of a metadata dict: every value cell is cloned
into a fresh cell holding the same payload. -/
def deepcopyMeta : List (String × Nat) → CtxHeap → List (String × Nat) × CtxHeap
  | [], h => ([], h)
  | (k, a) :: rest, h =>
    let p := h.alloc ((h.read a).getD [])
    let q := deepcopyMeta rest p.2
    ((k, p.1) :: q.1, q.2)

/-- `FlowContext.fork`: same correlation id, metadata deep-copied. -/
def FlowContextH.fork (c : FlowContextH) (h : CtxHeap) : FlowContextH × CtxHeap :=
  let m := deepcopyMeta c.metadata h
  ({ correlation_id := c.correlation_id, metadata := m.1 }, m.2)

/-- `FlowContext.set_value`: stores a (freshly materialised) value
object under the key. -/
def FlowContextH.set_value (c : FlowContextH) (h : CtxHeap) (key : String) (v : List String) :
    FlowContextH × CtxHeap :=
  let p := h.alloc v
  ({ c with metadata := aset c.metadata key p.1 }, p.2)

/-- `FlowContext.delete_value`: `del self._metadata[key]`, `KeyError`
when the key is absent. -/
def FlowContextH.delete_value (c : FlowContextH) (h : CtxHeap) (key : String) :
    Except PyError (FlowContextH × CtxHeap) :=
  match aget? c.metadata key with
  | none => .error (.keyError key)
  | some _ => .ok ({ c with metadata := adel c.metadata key }, h)

/-- In-place mutation of a stored metadata value (as Python's
`ctx.get_value(k).append(x)` would do): rewrites the value cell the
context holds under `key`; touches nothing when the key is absent. -/
def FlowContextH.mutate_value (c : FlowContextH) (h : CtxHeap) (key : String)
    (f : List String → List String) : CtxHeap :=
  match aget? c.metadata key with
  | none => h
  | some a => h.write a (f ((h.read a).getD []))

/-- The observable metadata of a context: each key with the current
payload of its value cell. -/
def viewMeta (c : FlowContextH) (h : CtxHeap) : List (String × List String) :=
  c.metadata.map (fun p => (p.1, (h.read p.2).getD []))

/-- Every address the context holds is an allocated cell. -/
def CtxOk (c : FlowContextH) (h : CtxHeap) : Prop := ∀ p ∈ c.metadata, p.2 < h.next

/-! ### The call wrappers of `penstock/_decorators.py` -/

/-- `penstock/_context.py` `FlowContext` as the payload of the
contextvar slot, as far as the wrapper claims observe it. -/
structure FlowContext where
  correlation_id : String
deriving DecidableEq, Repr

/-- What a wrapper does besides running the body: open the backend
span, run the wrapped function. -/
inductive TraceEvent where
  | spanOpened (step : String) (flow : String)
  | bodyRun
deriving DecidableEq, Repr

/-- The body of a wrapped call: it observes the contextvar slot, may
itself change it, and either returns a value or raises. -/
abbrev Body (α : Type) := Option FlowContext → Except PyError α × Option FlowContext

/-- The synchronous wrapper built by `_make_entrypoint`: installs a
freshly constructed context (`_set_context(FlowContext())`), opens the
backend span, runs the wrapped function and, on every exit path
(`finally`), clears the slot (`_reset_context`).  `fresh` stands for
the `FlowContext()` the wrapper constructs, `slot` for the strand's
contextvar at call time.  Returned: the call's outcome, the slot after
the call, and the events that happened. -/
def entrypoint_call {α : Type} (fresh : FlowContext) (step_name flow_name : String)
    (body : Body α) (slot : Option FlowContext) :
    Except PyError α × Option FlowContext × List TraceEvent :=
  let out := body (some fresh)
  (out.1, none, [.spanOpened step_name flow_name, .bodyRun])

/-- The synchronous wrapper built by `_make_step`: reads the slot,
raises `RuntimeError` when it is `None` (before opening a span or
running the body), otherwise opens the span and runs the body under
the unchanged slot. -/
def step_call {α : Type} (step_name flow_name : String)
    (body : Body α) (slot : Option FlowContext) :
    Except PyError α × Option FlowContext × List TraceEvent :=
  match slot with
  | none =>
    (.error (.runtimeError ("@step '" ++ step_name ++ "' called outside of a flow context. "
      ++ "Ensure an @entrypoint has been called first.")), none, [])
  | some ctx =>
    let out := body (some ctx)
    (out.1, out.2, [.spanOpened step_name flow_name, .bodyRun])

/-! ### Concrete records used to instantiate the theorems -/

/-- The entry step of the spec's concrete scenario. -/
def stepA : StepInfo := { name := "a", flow_name := "order", after := [], is_entrypoint := true }

/-- The dependent step of the spec's concrete scenario. -/
def stepB : StepInfo := { name := "b", flow_name := "order", after := ["a"], is_entrypoint := false }

/-- A record under `stepB`'s key differing in a field. -/
def stepB' : StepInfo := { name := "b", flow_name := "order", after := [], is_entrypoint := false }

/-- The registry holding `stepA` and `stepB`. -/
def regAB : Registry := [("order", [("a", stepA), ("b", stepB)])]

/-- `regAB` with its two steps registered in the opposite order. -/
def regBA : Registry := [("order", [("b", stepB), ("a", stepA)])]

/-- A step referencing two unknown predecessors. -/
def stepX : StepInfo := { name := "x", flow_name := "f", after := ["m1", "m2"], is_entrypoint := true }

/-- A step referencing one unknown predecessor. -/
def stepY : StepInfo := { name := "y", flow_name := "f", after := ["m3"], is_entrypoint := false }

/-- The registry whose flow `f` has three dangling references. -/
def regMissing : Registry := [("f", [("x", stepX), ("y", stepY)])]

/-- The `FlowInfo` that `get_flow regMissing "f"` resolves. -/
def fiMissing : FlowInfo :=
  { name := "f", steps := [("x", stepX), ("y", stepY)], entrypoints := ["x"] }

/-- First half of the two-step cycle. -/
def stepCa : StepInfo := { name := "a", flow_name := "cyc", after := ["b"], is_entrypoint := true }

/-- Second half of the two-step cycle. -/
def stepCb : StepInfo := { name := "b", flow_name := "cyc", after := ["a"], is_entrypoint := false }

/-- A heap-explicit registry holding flow `order` whose dict lives at
address 0. -/
def regH0 : RegistryH := [("order", 0)]

/-- The heap backing `regH0`: the dict at address 0 holds `stepA`. -/
def heapH0 : Heap StepDict := { store := [(0, [("a", stepA)])], next := 1 }

/-- `heapH0` after `getFlowH` allocated the snapshot copy at address 1. -/
def heapH1 : Heap StepDict :=
  { store := [(0, [("a", stepA)]), (1, [("a", stepA)])], next := 2 }

/-- A concrete context: one metadata key `k` whose value cell is
address 0. -/
def ctxW : FlowContextH := { correlation_id := "cid", metadata := [("k", 0)] }

/-- The value-cell heap backing `ctxW`. -/
def heapW : CtxHeap := { store := [(0, ["v"])], next := 1 }

end Penstock

instance {ε α : Type} [DecidableEq ε] [DecidableEq α] : DecidableEq (Except ε α) := fun a b =>
  match a, b with
  | .error x, .error y =>
    if h : x = y then isTrue (by rw [h]) else isFalse (by intro hh; cases hh; exact h rfl)
  | .error _, .ok _ => isFalse (by intro hh; cases hh)
  | .ok _, .error _ => isFalse (by intro hh; cases hh)
  | .ok x, .ok y =>
    if h : x = y then isTrue (by rw [h]) else isFalse (by intro hh; cases hh; exact h rfl)

namespace Penstock

theorem aget?_aset_self {κ α : Type} [DecidableEq κ] (d : List (κ × α)) (k : κ) (v : α) :
    aget? (aset d k v) k = some v := by
  induction d with
  | nil => simp [aset, aget?]
  | cons p rest ih =>
    obtain ⟨k₀, w⟩ := p
    by_cases hk : k₀ = k
    · simp [aset, hk, aget?]
    · simp [aset, hk, aget?, ih]

theorem aget?_aset_ne {κ α : Type} [DecidableEq κ] (d : List (κ × α)) {k k' : κ} (v : α)
    (h : k ≠ k') : aget? (aset d k v) k' = aget? d k' := by
  induction d with
  | nil => simp [aset, aget?, h]
  | cons p rest ih =>
    obtain ⟨k₀, w⟩ := p
    by_cases hk : k₀ = k
    · subst hk; simp [aset, aget?, h]
    · simp [aset, hk, aget?, ih]

theorem aget?_mem {κ α : Type} [DecidableEq κ] {d : List (κ × α)} {k : κ} {v : α}
    (h : aget? d k = some v) : (k, v) ∈ d := by
  induction d with
  | nil => simp [aget?] at h
  | cons p rest ih =>
    obtain ⟨k₀, w⟩ := p
    rw [aget?] at h
    by_cases hk : k₀ = k
    · rw [if_pos hk] at h
      injection h with hwv
      subst hk hwv
      exact List.mem_cons_self _ _
    · rw [if_neg hk] at h
      exact List.mem_cons_of_mem _ (ih h)

theorem aget?_eq_none_iff {κ α : Type} [DecidableEq κ] (d : List (κ × α)) (k : κ) :
    aget? d k = none ↔ k ∉ d.map Prod.fst := by
  induction d with
  | nil => simp [aget?]
  | cons p rest ih =>
    obtain ⟨k₀, w⟩ := p
    rw [aget?]
    by_cases hk : k₀ = k
    · subst hk
      simp
    · have hk₂ : k ≠ k₀ := fun he => hk he.symm
      simp [hk, hk₂, ih]

/-- **C1.** `FlowRegistry.register`: with no entry under the
`(flow_name, name)` key the step is inserted and every other key is
untouched; with a structurally equal entry present the call returns
the registry unchanged (observably a no-op); with a differing entry
present the call raises `ValueError` naming the flow and the step, and
— having raised before any mutation — leaves the stored entry
retrievable unchanged. -/
theorem register_cases (r : Registry) (info : StepInfo) :
    (lookupStep r info.flow_name info.name = none →
      ∃ r₁, register r info = .ok r₁ ∧
        lookupStep r₁ info.flow_name info.name = some info ∧
        ∀ f s, ¬(f = info.flow_name ∧ s = info.name) → lookupStep r₁ f s = lookupStep r f s) ∧
    (lookupStep r info.flow_name info.name = some info →
      register r info = .ok r) ∧
    (∀ e, lookupStep r info.flow_name info.name = some e → e ≠ info →
      register r info = .error (.valueError ("Conflicting registration for step '" ++ info.name
        ++ "' in flow '" ++ info.flow_name ++ "'")) ∧
      lookupStep r info.flow_name info.name = some e) := by
  refine ⟨?_, ?_, ?_⟩
  · intro h
    rw [lookupStep] at h
    refine ⟨aset r info.flow_name (aset ((aget? r info.flow_name).getD []) info.name info),
      by simp [register, h], ?_, ?_⟩
    · rw [lookupStep, aget?_aset_self, Option.getD_some, aget?_aset_self]
    · intro f s hfs
      by_cases hf : f = info.flow_name
      · subst hf
        have hs : s ≠ info.name := fun hs => hfs ⟨rfl, hs⟩
        rw [lookupStep, lookupStep, aget?_aset_self, Option.getD_some,
          aget?_aset_ne _ _ (fun he => hs he.symm)]
      · rw [lookupStep, lookupStep, aget?_aset_ne _ _ (fun he => hf he.symm)]
  · intro h
    rw [lookupStep] at h
    simp [register, h]
  · intro e h hne
    rw [lookupStep] at h
    exact ⟨by simp [register, h, hne], by rw [lookupStep]; exact h⟩

/-- Witness for **C1**: the three cases at concrete inputs — inserting
`stepB` into the registry holding only `stepA`, re-registering the
identical `stepB`, and registering the differing `stepB'`. -/
theorem register_cases_witness :
    (∃ r₁, register [("order", [("a", stepA)])] stepB = .ok r₁ ∧
      lookupStep r₁ "order" "b" = some stepB ∧
      ∀ f s, ¬(f = "order" ∧ s = "b") →
        lookupStep r₁ f s = lookupStep [("order", [("a", stepA)])] f s) ∧
    register regAB stepB = .ok regAB ∧
    (register regAB stepB' = .error (.valueError
      "Conflicting registration for step 'b' in flow 'order'") ∧
      lookupStep regAB "order" "b" = some stepB) :=
  ⟨(register_cases [("order", [("a", stepA)])] stepB).1 (by decide),
   (register_cases regAB stepB).2.1 (by decide),
   (register_cases regAB stepB').2.2 stepB (by decide) (by decide)⟩

theorem aget?_isNone_eq_not_contains {α : Type} (d : List (String × α)) (k : String) :
    (aget? d k).isNone = !((d.map Prod.fst).contains k) := by
  induction d with
  | nil => simp [aget?]
  | cons p rest ih =>
    obtain ⟨k₀, w⟩ := p
    rw [aget?]
    by_cases hk : k₀ = k
    · subst hk; simp
    · have hk₂ : ¬k = k₀ := fun he => hk he.symm
      rw [if_neg hk, ih]
      simp [hk, hk₂]

theorem missing_messages_eq (steps : StepDict) :
    steps.flatMap (fun p =>
      (p.2.after.filter (fun ref => (aget? steps ref).isNone)).map
        (fun ref => "Step '" ++ p.2.name ++ "' references unknown step '" ++ ref ++ "'"))
    = (refViolations steps).map
        (fun v => "Step '" ++ v.1 ++ "' references unknown step '" ++ v.2 ++ "'") := by
  have hpred : (fun ref => (aget? steps ref).isNone)
      = (fun ref => !(steps.map Prod.fst).contains ref) :=
    funext (fun ref => by rw [aget?_isNone_eq_not_contains])
  rw [refViolations, List.map_flatMap]
  congr 1
  funext p
  rw [List.map_map, hpred]
  rfl

/-- **C3.** `FlowRegistry.validate_flow`: an unregistered flow fails
with `KeyError` (before any reference checking); otherwise every
`after` reference of every step is checked, all dangling ones are
collected, and the call either succeeds (no violation) or raises one
`ValueError` enumerating every violation as
`Step 'X' references unknown step 'Y'`. -/
theorem validate_flow_correct (r : Registry) (name : String) :
    (aget? r name = none →
      validate_flow r name = .error (.keyError ("Flow '" ++ name ++ "' not found"))) ∧
    (∀ fi, get_flow r name = .ok fi →
      (refViolations fi.steps = [] → validate_flow r name = .ok ()) ∧
      (refViolations fi.steps ≠ [] →
        validate_flow r name =
          .error (.valueError (renderViolations name (refViolations fi.steps))))) := by
  constructor
  · intro h
    simp [validate_flow, get_flow, h]
  · intro fi hfi
    cases hsteps : aget? r name with
    | none => simp [get_flow, hsteps] at hfi
    | some steps =>
      simp only [get_flow, hsteps] at hfi
      injection hfi with hfi
      subst hfi
      simp only [validate_flow, get_flow, hsteps]
      rw [missing_messages_eq steps]
      constructor
      · intro hv
        rw [hv]
        rfl
      · intro hv
        cases hvs : refViolations steps with
        | nil => exact absurd hvs hv
        | cons v vs =>
          simp only [List.map_cons, List.isEmpty_cons, Bool.false_eq_true, if_false,
            renderViolations, List.map_map]
          rfl

/-- Witness for **C3**: the flow `f` has two steps referencing three
distinct missing predecessors and `validate_flow` reports all three;
an unregistered flow name fails with `KeyError`. -/
theorem validate_flow_correct_witness :
    validate_flow regMissing "f" =
      .error (.valueError (renderViolations "f" [("x", "m1"), ("x", "m2"), ("y", "m3")])) ∧
    validate_flow regMissing "ghost" = .error (.keyError "Flow 'ghost' not found") :=
  ⟨((validate_flow_correct regMissing "f").2 fiMissing rfl).2 (by decide),
   (validate_flow_correct regMissing "ghost").1 rfl⟩

/-- **C5.** `validate_flow` does not detect cycles: the flow built by
registering `a` (after `b`) and `b` (after `a`) validates
successfully. -/
theorem validate_flow_accepts_cycle :
    (register [] stepCa >>= fun r => register r stepCb >>= fun r =>
      validate_flow r "cyc") = .ok () := by decide

/-- **C9.** `generate_dag` rejects any format other than `"mermaid"`
with `ValueError` before any registry lookup — the result then does
not depend on the registry at all; with the supported format and an
unregistered flow it propagates the registry's `KeyError`. -/
theorem generate_dag_errors (r : Registry) (name fmt : String) :
    (fmt ≠ "mermaid" →
      generate_dag r name fmt = .error (.valueError ("Unsupported format: '" ++ fmt ++ "'")) ∧
      ∀ r' : Registry, generate_dag r' name fmt = generate_dag r name fmt) ∧
    (aget? r name = none →
      generate_dag r name "mermaid" = .error (.keyError ("Flow '" ++ name ++ "' not found"))) := by
  constructor
  · intro h
    constructor
    · simp [generate_dag, h]
    · intro r'
      simp [generate_dag, h]
  · intro h
    simp [generate_dag, get_flow, h]

/-- Witness for **C9**: format `json` is rejected on an empty
registry; format `mermaid` on an unknown flow raises `KeyError`. -/
theorem generate_dag_errors_witness :
    generate_dag [] "order" "json" = .error (.valueError "Unsupported format: 'json'") ∧
    generate_dag [] "ghost" "mermaid" = .error (.keyError "Flow 'ghost' not found") :=
  ⟨((generate_dag_errors [] "order" "json").1 (by decide)).1,
   (generate_dag_errors [] "ghost" "mermaid").2 rfl⟩

theorem strLe_antisymm {a b : String} (h₁ : strLe a b = true) (h₂ : strLe b a = true) :
    a = b := by
  simp only [strLe, decide_eq_true_eq] at h₁ h₂
  exact le_antisymm h₁ h₂

theorem strLe_trans {a b c : String} (h₁ : strLe a b = true) (h₂ : strLe b c = true) :
    strLe a c = true := by
  simp only [strLe, decide_eq_true_eq] at h₁ h₂ ⊢
  exact le_trans h₁ h₂

theorem strLe_total (a b : String) : strLe a b || strLe b a := by
  simp only [strLe, Bool.or_eq_true, decide_eq_true_eq]
  exact le_total a b

theorem edgeLe_iff (a b : String × String) :
    edgeLe a b = true ↔ (a.1 = b.1 ∧ a.2 ≤ b.2) ∨ (a.1 ≠ b.1 ∧ a.1 ≤ b.1) := by
  rw [edgeLe]
  by_cases h : a.1 = b.1 <;> simp [h]

theorem edgeLe_antisymm {a b : String × String} (h₁ : edgeLe a b = true)
    (h₂ : edgeLe b a = true) : a = b := by
  rw [edgeLe_iff] at h₁ h₂
  rcases h₁ with ⟨he₁, hl₁⟩ | ⟨hn₁, hl₁⟩
  · rcases h₂ with ⟨he₂, hl₂⟩ | ⟨hn₂, hl₂⟩
    · exact Prod.ext_iff.mpr ⟨he₁, le_antisymm hl₁ hl₂⟩
    · exact absurd he₁.symm hn₂
  · rcases h₂ with ⟨he₂, hl₂⟩ | ⟨hn₂, hl₂⟩
    · exact absurd he₂.symm hn₁
    · exact absurd (le_antisymm hl₁ hl₂) hn₁

theorem edgeLe_trans {a b c : String × String} (h₁ : edgeLe a b = true)
    (h₂ : edgeLe b c = true) : edgeLe a c = true := by
  rw [edgeLe_iff] at h₁ h₂ ⊢
  rcases h₁ with ⟨he₁, hl₁⟩ | ⟨hn₁, hl₁⟩
  · rcases h₂ with ⟨he₂, hl₂⟩ | ⟨hn₂, hl₂⟩
    · exact Or.inl ⟨he₁.trans he₂, le_trans hl₁ hl₂⟩
    · exact Or.inr ⟨he₁ ▸ hn₂, he₁ ▸ hl₂⟩
  · rcases h₂ with ⟨he₂, hl₂⟩ | ⟨hn₂, hl₂⟩
    · exact Or.inr ⟨he₂ ▸ hn₁, he₂ ▸ hl₁⟩
    · refine Or.inr ⟨?_, le_trans hl₁ hl₂⟩
      intro hac
      exact hn₁ (le_antisymm hl₁ (hac ▸ hl₂))

theorem edgeLe_total (a b : String × String) : edgeLe a b || edgeLe b a := by
  rw [Bool.or_eq_true, edgeLe_iff, edgeLe_iff]
  by_cases h : a.1 = b.1
  · rcases le_total a.2 b.2 with hl | hl
    · exact Or.inl (Or.inl ⟨h, hl⟩)
    · exact Or.inr (Or.inl ⟨h.symm, hl⟩)
  · rcases le_total a.1 b.1 with hl | hl
    · exact Or.inl (Or.inr ⟨h, hl⟩)
    · exact Or.inr (Or.inr ⟨fun he => h he.symm, hl⟩)

theorem mergeSort_edgeLe_congr {l₁ l₂ : List (String × String)} (h : l₁.Perm l₂) :
    l₁.mergeSort edgeLe = l₂.mergeSort edgeLe := by
  refine @List.eq_of_perm_of_sorted _ (fun a b => edgeLe a b = true)
    ⟨fun _ _ => edgeLe_antisymm⟩ _ _ ?_ ?_ ?_
  · exact (List.mergeSort_perm l₁ edgeLe).trans (h.trans (List.mergeSort_perm l₂ edgeLe).symm)
  · exact @List.sorted_mergeSort _ edgeLe (fun a b c h₁ h₂ => edgeLe_trans h₁ h₂) (fun a b => edgeLe_total a b) l₁
  · exact @List.sorted_mergeSort _ edgeLe (fun a b c h₁ h₂ => edgeLe_trans h₁ h₂) (fun a b => edgeLe_total a b) l₂

theorem mergeSort_strLe_congr {l₁ l₂ : List String} (h : l₁.Perm l₂) :
    l₁.mergeSort strLe = l₂.mergeSort strLe := by
  refine @List.eq_of_perm_of_sorted _ (fun a b => strLe a b = true)
    ⟨fun _ _ => strLe_antisymm⟩ _ _ ?_ ?_ ?_
  · exact (List.mergeSort_perm l₁ strLe).trans (h.trans (List.mergeSort_perm l₂ strLe).symm)
  · exact @List.sorted_mergeSort _ strLe (fun a b c h₁ h₂ => strLe_trans h₁ h₂) (fun a b => strLe_total a b) l₁
  · exact @List.sorted_mergeSort _ strLe (fun a b c h₁ h₂ => strLe_trans h₁ h₂) (fun a b => strLe_total a b) l₂

/-- **C4.** For a registered flow whose step-dict keys are the steps'
names (`register` only ever stores a step under its own name),
`generate_dag` in the `mermaid` format returns exactly the rendering
the spec prescribes (`specRenderDag`): a `graph TD` header, one
indented edge line per `(predecessor, step)` pair sorted
lexicographically by pair, or — with zero edges — one indented line per
step name, sorted.  Moreover the output is invariant under permutation
of the stored step dict, so two calls on the same flow state render
byte-identically regardless of registration order. -/
theorem generate_dag_spec (r r' : Registry) (name : String) (steps steps' : StepDict)
    (hs : aget? r name = some steps) (hs' : aget? r' name = some steps')
    (hkeys : ∀ p ∈ steps, p.1 = p.2.name)
    (hperm : steps'.Perm steps) :
    (∀ fi, get_flow r name = .ok fi →
      generate_dag r name "mermaid" = .ok (specRenderDag fi)) ∧
    generate_dag r' name "mermaid" = generate_dag r name "mermaid" := by
  constructor
  · intro fi hfi
    simp only [get_flow, hs] at hfi
    injection hfi with hfi
    subst hfi
    simp only [generate_dag, get_flow, hs, specRenderDag]
    rw [List.map_congr_left hkeys, if_neg (fun h => h rfl)]
    split <;> rfl
  · have hedges : (edgesOf steps').Perm (edgesOf steps) :=
      List.Perm.flatMap_right _ hperm
    simp only [generate_dag, get_flow, hs, hs']
    rw [mergeSort_edgeLe_congr hedges, mergeSort_strLe_congr (hperm.map Prod.fst)]
    have hie : (edgesOf steps').isEmpty = (edgesOf steps).isEmpty := by
      cases he : edgesOf steps with
      | nil =>
        rw [List.isEmpty_iff.mpr (List.Perm.eq_nil (he ▸ hedges))]
        rfl
      | cons x xs =>
        have hx : x ∈ edgesOf steps' := by
          rw [hedges.mem_iff, he]
          exact List.mem_cons_self x xs
        rw [List.isEmpty_eq_false_iff_exists_mem.mpr ⟨x, hx⟩, List.isEmpty_cons]
    rw [hie]

unseal List.merge List.mergeSort in
/-- Witness for **C4**: the spec's concrete scenario — flow `order`
with steps `a` (entry, no predecessors) and `b` (after `a`) renders as
the two-line graph `graph TD` / `    a --> b`, and the registry with
the two steps registered in the opposite order renders identically. -/
theorem generate_dag_spec_witness :
    generate_dag regAB "order" "mermaid" = .ok "graph TD\n    a --> b\n" ∧
    generate_dag regBA "order" "mermaid" = generate_dag regAB "order" "mermaid" := by
  have h := generate_dag_spec regAB regBA "order"
    [("a", stepA), ("b", stepB)] [("b", stepB), ("a", stepA)]
    rfl rfl (by decide) (by decide)
  exact ⟨(h.1 { name := "order", steps := [("a", stepA), ("b", stepB)], entrypoints := ["a"] }
    rfl).trans (by rfl), h.2⟩

/-- **C7.** The entrypoint wrapper tears the context down on every
exit path: whatever the wrapped logic returns or raises — and whatever
it did to the slot itself — after the call the strand's current
context is absent, and the body's outcome (value or error) is passed
through unswallowed.  (The backend lookup and span are out-of-scope
collaborators, modelled as non-raising.) -/
theorem entrypoint_clears_context {α : Type} (fresh : FlowContext) (step flow : String)
    (body : Body α) (slot : Option FlowContext) :
    (entrypoint_call fresh step flow body slot).2.1 = none ∧
    (entrypoint_call fresh step flow body slot).1 = (body (some fresh)).1 :=
  ⟨rfl, rfl⟩

/-- **C8.** A step wrapper invoked while no flow context is current
fails at once with `RuntimeError` naming the step: no span is opened,
the wrapped logic never runs, and the slot stays absent (no default
context is created). -/
theorem step_call_no_context {α : Type} (step flow : String) (body : Body α) :
    step_call step flow body none =
      (.error (.runtimeError ("@step '" ++ step ++ "' called outside of a flow context. "
        ++ "Ensure an @entrypoint has been called first.")), none, []) := rfl

/-- **C10.** Calling an entrypoint wrapper while a context is already
current: the wrapper unconditionally installs the fresh context — the
body observes exactly `some fresh`, never the caller's context —, the
whole call behaves identically to one made with no prior context, and
on exit the slot is cleared to `none` rather than restored to the
caller's context, which is therefore lost for the rest of the strand. -/
theorem entrypoint_nested_loses_outer {α : Type} (fresh : FlowContext) (step flow : String)
    (body : Body α) (outer : FlowContext) :
    (entrypoint_call fresh step flow body (some outer)).1 = (body (some fresh)).1 ∧
    entrypoint_call fresh step flow body (some outer) =
      entrypoint_call fresh step flow body none ∧
    (entrypoint_call fresh step flow body (some outer)).2.1 = none :=
  ⟨rfl, rfl, rfl⟩

theorem aget?_append_single_ne {κ α : Type} [DecidableEq κ] (s : List (κ × α)) {n k : κ}
    (v : α) (h : n ≠ k) : aget? (s ++ [(n, v)]) k = aget? s k := by
  induction s with
  | nil => simp [aget?, h]
  | cons p rest ih =>
    obtain ⟨k₀, w⟩ := p
    rw [List.cons_append, aget?, aget?]
    by_cases hk : k₀ = k
    · rw [if_pos hk, if_pos hk]
    · rw [if_neg hk, if_neg hk, ih]

theorem aget?_append_single_self {κ α : Type} [DecidableEq κ] (s : List (κ × α)) (n : κ)
    (v : α) (h : aget? s n = none) : aget? (s ++ [(n, v)]) n = some v := by
  induction s with
  | nil => simp [aget?]
  | cons p rest ih =>
    obtain ⟨k₀, w⟩ := p
    rw [aget?] at h
    by_cases hk : k₀ = n
    · rw [if_pos hk] at h; cases h
    · rw [if_neg hk] at h
      rw [List.cons_append, aget?, if_neg hk]
      exact ih h

theorem mem_aset {κ α : Type} [DecidableEq κ] {d : List (κ × α)} {k : κ} {v : α} {p : κ × α}
    (h : p ∈ aset d k v) : p ∈ d ∨ p = (k, v) := by
  induction d with
  | nil =>
    rw [aset] at h
    exact Or.inr (List.mem_singleton.mp h)
  | cons q rest ih =>
    obtain ⟨k₀, w⟩ := q
    rw [aset] at h
    by_cases hk : k₀ = k
    · rw [if_pos hk] at h
      rcases List.mem_cons.mp h with h | h
      · exact Or.inr h
      · exact Or.inl (List.mem_cons_of_mem _ h)
    · rw [if_neg hk] at h
      rcases List.mem_cons.mp h with h | h
      · exact Or.inl (h ▸ List.mem_cons_self _ _)
      · rcases ih h with h₁ | h₁
        · exact Or.inl (List.mem_cons_of_mem _ h₁)
        · exact Or.inr h₁

theorem Heap.read_write_self {β : Type} (h : Heap β) (a : Nat) (v : β) :
    (h.write a v).read a = some v := aget?_aset_self _ _ _

theorem Heap.read_write_ne {β : Type} (h : Heap β) {a b : Nat} (v : β) (hne : a ≠ b) :
    (h.write a v).read b = h.read b := aget?_aset_ne _ _ hne

theorem Heap.read_alloc_lt {β : Type} (h : Heap β) (v : β) {a : Nat} (ha : a < h.next) :
    (h.alloc v).2.read a = h.read a :=
  aget?_append_single_ne _ _ (by omega)

theorem Heap.read_alloc_self {β : Type} (h : Heap β) (v : β) (hok : HeapOk h) :
    (h.alloc v).2.read h.next = some v := by
  have hnone : aget? h.store h.next = none := by
    rw [aget?_eq_none_iff]
    intro hmem
    obtain ⟨p, hp, hfst⟩ := List.mem_map.mp hmem
    have := hok p hp
    omega
  exact aget?_append_single_self _ _ _ hnone

theorem HeapOk.write {β : Type} {h : Heap β} (hok : HeapOk h) {a : Nat} (ha : a < h.next)
    (v : β) : HeapOk (h.write a v) := by
  intro p hp
  rcases mem_aset hp with hmem | hmem
  · exact hok p hmem
  · rw [hmem]
    exact ha

theorem HeapOk.alloc {β : Type} {h : Heap β} (hok : HeapOk h) (v : β) :
    HeapOk (h.alloc v).2 := by
  intro p hp
  rcases List.mem_append.mp hp with h₁ | h₁
  · have := hok p h₁
    show p.1 < h.next + 1
    omega
  · rw [List.mem_singleton.mp h₁]
    show h.next < h.next + 1
    omega

theorem registerH_preserves (a : Nat) (r : RegistryH) (h : Heap StepDict) (info : StepInfo)
    {r₁ : RegistryH} {h₁ : Heap StepDict}
    (hstep : registerH r h info = .ok (r₁, h₁)) (hiso : SnapOk a r h) :
    SnapOk a r₁ h₁ ∧ h₁.read a = h.read a := by
  obtain ⟨ha, hok, hreg, hdisj⟩ := hiso
  cases hflow : aget? r info.flow_name with
  | some b =>
    simp only [registerH, hflow] at hstep
    have hb : (info.flow_name, b) ∈ r := aget?_mem hflow
    have hbn : b < h.next := hreg _ hb
    have hba : b ≠ a := hdisj _ hb
    cases hex : aget? ((h.read b).getD []) info.name with
    | some existing =>
      simp only [hex] at hstep
      by_cases he : existing = info
      · rw [if_pos he] at hstep
        injection hstep with hstep
        injection hstep with h₁ h₂
        subst h₁; subst h₂
        exact ⟨⟨ha, hok, hreg, hdisj⟩, rfl⟩
      · rw [if_neg he] at hstep
        cases hstep
    | none =>
      simp only [hex] at hstep
      injection hstep with hstep
      injection hstep with hr hh
      subst hr; subst hh
      refine ⟨⟨ha, hok.write hbn _, hreg, hdisj⟩, ?_⟩
      exact Heap.read_write_ne _ _ hba
  | none =>
    simp only [registerH, hflow, Heap.alloc] at hstep
    injection hstep with hstep
    injection hstep with hr hh
    subst hr; subst hh
    constructor
    · refine ⟨by show a < h.next + 1; omega, ?_, ?_, ?_⟩
      · exact (hok.alloc []).write (by show h.next < h.next + 1; omega) _
      · intro p hp
        rcases mem_aset hp with hmem | hmem
        · have := hreg _ hmem
          show p.2 < h.next + 1
          omega
        · rw [hmem]
          show h.next < h.next + 1
          omega
      · intro p hp
        rcases mem_aset hp with hmem | hmem
        · exact hdisj _ hmem
        · rw [hmem]
          omega
    · rw [Heap.read_write_ne _ _ (by omega : h.next ≠ a)]
      exact Heap.read_alloc_lt _ _ ha

theorem registerManyH_preserves (l : List StepInfo) (a : Nat) :
    ∀ (r : RegistryH) (h : Heap StepDict), SnapOk a r h →
      SnapOk a (registerManyH l (r, h)).1 (registerManyH l (r, h)).2 ∧
      (registerManyH l (r, h)).2.read a = h.read a := by
  induction l with
  | nil => exact fun r h hiso => ⟨hiso, rfl⟩
  | cons info rest ih =>
    intro r h hiso
    cases hreg : registerH r h info with
    | ok rh₁ =>
      obtain ⟨hiso₁, hread₁⟩ :=
        registerH_preserves a r h info (by rw [hreg]) hiso
      obtain ⟨hiso₂, hread₂⟩ := ih rh₁.1 rh₁.2 hiso₁
      simp only [registerManyH, hreg]
      exact ⟨hiso₂, hread₂.trans hread₁⟩
    | error e =>
      obtain ⟨hiso₂, hread₂⟩ := ih r h hiso
      simp only [registerManyH, hreg]
      exact ⟨hiso₂, hread₂⟩

/-- **C2.** Snapshot isolation: the step dict a `get_flow` snapshot
holds is a defensive copy living in its own freshly allocated cell, so
any sequence of later `register` calls — for this flow or any other,
succeeding or raising — leaves the snapshot's step mapping unchanged
(its `entrypoints` value, computed at snapshot time, is a pure value
and cannot change at all). -/
theorem getFlow_snapshot_isolated (r : RegistryH) (h : Heap StepDict) (name : String)
    (fi : FlowInfoH) (h₁ : Heap StepDict) (infos : List StepInfo)
    (hok : HeapOk h) (hreg : RegOk r h)
    (hget : getFlowH r h name = .ok (fi, h₁)) :
    (registerManyH infos (r, h₁)).2.read fi.steps = h₁.read fi.steps := by
  rw [getFlowH] at hget
  cases hflow : aget? r name with
  | none => rw [hflow] at hget; cases hget
  | some b =>
    rw [hflow] at hget
    injection hget with hget
    injection hget with hfi hh
    subst hh
    have hsteps : fi.steps = h.next := by rw [← hfi]
    have hsnap : SnapOk fi.steps r (h.alloc ((h.read b).getD [])).2 := by
      rw [hsteps]
      refine ⟨by show h.next < h.next + 1; omega, hok.alloc _, ?_, ?_⟩
      · intro p hp
        have := hreg p hp
        show p.2 < h.next + 1
        omega
      · intro p hp
        have := hreg p hp
        omega
    exact (registerManyH_preserves infos fi.steps r _ hsnap).2

/-- Witness for **C2**: a snapshot of flow `order` lives at address 1;
registering `stepB` afterwards mutates the registry's own dict (at
address 0) but the snapshot cell still reads its original content. -/
theorem getFlow_snapshot_isolated_witness :
    (registerManyH [stepB] (regH0, heapH1)).2.read 1 = heapH1.read 1 ∧
    (registerManyH [stepB] (regH0, heapH1)).2.read 0 ≠ heapH1.read 0 :=
  ⟨getFlow_snapshot_isolated regH0 heapH0 "order"
      { name := "order", steps := 1, entrypoints := ["a"] } heapH1 [stepB]
      (by unfold HeapOk; decide) (by unfold RegOk; decide) rfl,
   by decide⟩

theorem Heap.alloc_next {β : Type} (h : Heap β) (v : β) : (h.alloc v).2.next = h.next + 1 :=
  rfl

theorem Heap.alloc_fst {β : Type} (h : Heap β) (v : β) : (h.alloc v).1 = h.next := rfl

theorem deepcopyMeta_next_le (m : List (String × Nat)) (h : CtxHeap) :
    h.next ≤ (deepcopyMeta m h).2.next := by
  induction m generalizing h with
  | nil => exact le_refl _
  | cons q rest ih =>
    obtain ⟨k, a⟩ := q
    simp only [deepcopyMeta]
    exact le_trans (Nat.le_succ h.next) (ih (h.alloc ((h.read a).getD [])).2)

theorem deepcopyMeta_heapOk {m : List (String × Nat)} {h : CtxHeap} (hok : HeapOk h) :
    HeapOk (deepcopyMeta m h).2 := by
  induction m generalizing h with
  | nil => exact hok
  | cons q rest ih =>
    obtain ⟨k, a⟩ := q
    simp only [deepcopyMeta]
    exact ih (hok.alloc _)

theorem deepcopyMeta_read_lt {m : List (String × Nat)} {h : CtxHeap} {a : Nat}
    (ha : a < h.next) : (deepcopyMeta m h).2.read a = h.read a := by
  induction m generalizing h with
  | nil => rfl
  | cons q rest ih =>
    obtain ⟨k, b⟩ := q
    simp only [deepcopyMeta]
    rw [ih (by rw [Heap.alloc_next]; omega)]
    exact Heap.read_alloc_lt _ _ ha

theorem deepcopyMeta_fresh {m : List (String × Nat)} {h : CtxHeap} :
    ∀ p ∈ (deepcopyMeta m h).1, h.next ≤ p.2 ∧ p.2 < (deepcopyMeta m h).2.next := by
  induction m generalizing h with
  | nil => intro p hp; cases hp
  | cons q rest ih =>
    obtain ⟨k, a⟩ := q
    intro p hp
    simp only [deepcopyMeta] at hp ⊢
    rcases List.mem_cons.mp hp with hp | hp
    · have hnext := deepcopyMeta_next_le rest (h.alloc ((h.read a).getD [])).2
      rw [Heap.alloc_next] at hnext
      rw [hp]
      exact ⟨le_refl _, by rw [Heap.alloc_fst]; omega⟩
    · have := ih p hp
      rw [Heap.alloc_next] at this
      exact ⟨by omega, this.2⟩

theorem deepcopyMeta_view {m : List (String × Nat)} {h : CtxHeap} (hok : HeapOk h)
    (hm : ∀ p ∈ m, p.2 < h.next) :
    (deepcopyMeta m h).1.map (fun p => (p.1, ((deepcopyMeta m h).2.read p.2).getD []))
      = m.map (fun p => (p.1, (h.read p.2).getD [])) := by
  induction m generalizing h with
  | nil => rfl
  | cons q rest ih =>
    obtain ⟨k, a⟩ := q
    simp only [deepcopyMeta, List.map_cons]
    congr 1
    · rw [Heap.alloc_fst,
        deepcopyMeta_read_lt (by rw [Heap.alloc_next]; omega),
        Heap.read_alloc_self _ _ hok]
      rfl
    · rw [ih (hok.alloc _)
        (fun p hp => by
          rw [Heap.alloc_next]
          have := hm p (List.mem_cons_of_mem _ hp)
          omega)]
      exact List.map_congr_left
        (fun p hp => by rw [Heap.read_alloc_lt _ _ (hm p (List.mem_cons_of_mem _ hp))])

theorem viewMeta_write_ne (c : FlowContextH) (h : CtxHeap) {a : Nat} (v : List String)
    (ha : ∀ p ∈ c.metadata, p.2 ≠ a) : viewMeta c (h.write a v) = viewMeta c h :=
  List.map_congr_left
    (fun p hp => by rw [Heap.read_write_ne _ _ (fun he => ha p hp he.symm)])

theorem viewMeta_alloc (c : FlowContextH) (h : CtxHeap) (v : List String)
    (hc : ∀ p ∈ c.metadata, p.2 < h.next) : viewMeta c (h.alloc v).2 = viewMeta c h :=
  List.map_congr_left (fun p hp => by rw [Heap.read_alloc_lt _ _ (hc p hp)])

/-- **C6.** `FlowContext.fork` yields a child with the same
correlation id whose observable metadata equals the parent's, and the
deep copy severs all sharing: setting a value, deleting a key, or
mutating a stored value in place on either of the two contexts leaves
the other's observable metadata untouched. -/
theorem fork_isolated (c : FlowContextH) (h : CtxHeap) (hok : HeapOk h) (hc : CtxOk c h) :
    (c.fork h).1.correlation_id = c.correlation_id ∧
    viewMeta (c.fork h).1 (c.fork h).2 = viewMeta c h ∧
    viewMeta c (c.fork h).2 = viewMeta c h ∧
    (∀ key v, viewMeta (c.fork h).1 (c.set_value (c.fork h).2 key v).2
      = viewMeta (c.fork h).1 (c.fork h).2) ∧
    (∀ key v, viewMeta c ((c.fork h).1.set_value (c.fork h).2 key v).2
      = viewMeta c (c.fork h).2) ∧
    (∀ key g, viewMeta (c.fork h).1 (c.mutate_value (c.fork h).2 key g)
      = viewMeta (c.fork h).1 (c.fork h).2) ∧
    (∀ key g, viewMeta c ((c.fork h).1.mutate_value (c.fork h).2 key g)
      = viewMeta c (c.fork h).2) ∧
    (∀ key c₂ h₂, c.delete_value (c.fork h).2 key = .ok (c₂, h₂) →
      viewMeta (c.fork h).1 h₂ = viewMeta (c.fork h).1 (c.fork h).2) ∧
    (∀ key c₂ h₂, (c.fork h).1.delete_value (c.fork h).2 key = .ok (c₂, h₂) →
      viewMeta c h₂ = viewMeta c (c.fork h).2) := by
  have hchild : (c.fork h).1.metadata = (deepcopyMeta c.metadata h).1 := rfl
  have hheap : (c.fork h).2 = (deepcopyMeta c.metadata h).2 := rfl
  have hfresh : ∀ p ∈ (c.fork h).1.metadata,
      h.next ≤ p.2 ∧ p.2 < (c.fork h).2.next := by
    rw [hchild, hheap]
    exact deepcopyMeta_fresh
  have hnextle : h.next ≤ (c.fork h).2.next := by
    rw [hheap]
    exact deepcopyMeta_next_le _ _
  have hparent_lt : ∀ p ∈ c.metadata, p.2 < (c.fork h).2.next :=
    fun p hp => lt_of_lt_of_le (hc p hp) hnextle
  have hchild_lt : ∀ p ∈ (c.fork h).1.metadata, p.2 < (c.fork h).2.next :=
    fun p hp => (hfresh p hp).2
  refine ⟨rfl, ?_, ?_, ?_, ?_, ?_, ?_, ?_, ?_⟩
  · show (c.fork h).1.metadata.map (fun p => (p.1, ((c.fork h).2.read p.2).getD []))
      = viewMeta c h
    rw [hchild, hheap]
    exact deepcopyMeta_view hok hc
  · refine List.map_congr_left (fun p hp => ?_)
    rw [hheap, deepcopyMeta_read_lt (hc p hp)]
  · intro key v
    exact viewMeta_alloc _ _ _ hchild_lt
  · intro key v
    exact viewMeta_alloc _ _ _ hparent_lt
  · intro key g
    rw [FlowContextH.mutate_value]
    cases hkey : aget? c.metadata key with
    | none => rfl
    | some a =>
      have ha : a < h.next := hc _ (aget?_mem hkey)
      exact viewMeta_write_ne _ _ _
        (fun p hp => by have := (hfresh p hp).1; omega)
  · intro key g
    rw [FlowContextH.mutate_value]
    cases hkey : aget? (c.fork h).1.metadata key with
    | none => rfl
    | some a =>
      have ha : h.next ≤ a := (hfresh _ (aget?_mem hkey)).1
      exact viewMeta_write_ne _ _ _
        (fun p hp => by have := hc p hp; omega)
  · intro key c₂ h₂ hdel
    rw [FlowContextH.delete_value] at hdel
    cases hkey : aget? c.metadata key with
    | none => rw [hkey] at hdel; cases hdel
    | some a =>
      rw [hkey] at hdel
      injection hdel with hdel
      injection hdel with h₁ h₂
      rw [← h₂]
  · intro key c₂ h₂ hdel
    rw [FlowContextH.delete_value] at hdel
    cases hkey : aget? (c.fork h).1.metadata key with
    | none => rw [hkey] at hdel; cases hdel
    | some a =>
      rw [hkey] at hdel
      injection hdel with hdel
      injection hdel with h₁ h₂
      rw [← h₂]

/-- Witness for **C6**: fork a context holding one key `k`, then
mutate `k`'s stored value in place through the parent; the child's
observable metadata is unchanged (and the fork shares the correlation
id and the metadata content). -/
theorem fork_isolated_witness :
    (ctxW.fork heapW).1.correlation_id = "cid" ∧
    viewMeta (ctxW.fork heapW).1 (ctxW.fork heapW).2 = viewMeta ctxW heapW ∧
    viewMeta (ctxW.fork heapW).1
        (ctxW.mutate_value (ctxW.fork heapW).2 "k" (fun l => "x" :: l))
      = viewMeta (ctxW.fork heapW).1 (ctxW.fork heapW).2 := by
  have hf := fork_isolated ctxW heapW (by unfold HeapOk; decide) (by unfold CtxOk; decide)
  exact ⟨hf.1, hf.2.1, hf.2.2.2.2.2.1 "k" (fun l => "x" :: l)⟩

end Penstock


